import Mathlib

/-!
Verification of the market-position update engine of the polymarket subgraph
(`src/utils/market-positions-utils.ts`), shallowly embedded in Lean.

Modelling conventions:
* graph-ts `BigInt` is `Int`; `BigInt.div` truncates toward zero, so it is
  `Int.tdiv`.
* `BigInt.toI32` keeps the low 32 bits of the value in two's complement
  (the old graph-ts `ByteArray.toI32` copies the first four little-endian
  bytes), modelled by `toI32`.
* The entity store is an association list from the entity id string to the
  entity; `Store.load`/`Store.save` mirror `Entity.load`/`entity.save`.
* `log.error` calls are collected in a `List Diag`, in emission order.
* Runtime aborts of the AssemblyScript mapping (dereferencing a null entity,
  an out-of-range array index, `BigInt` division by zero, `pop()` on an
  empty array) are modelled by `Except Trap`: reducers return
  `List Diag × Except Trap Store`, the diagnostics emitted before the abort
  being kept.
-/

namespace MarketPositions

/-- `bigZero` from `src/utils/constants.ts`. -/
def bigZero : Int := 0

/-- Truncating division toward zero: the semantics of graph-ts `BigInt.div`. -/
def bigDiv (a b : Int) : Int := Int.tdiv a b

/-- `BigInt.toI32`: the low 32 bits of the value, read as a signed 32-bit
integer (two's complement). -/
def toI32 (n : Int) : Int :=
  if n % 4294967296 < 2147483648 then n % 4294967296 else n % 4294967296 - 4294967296

/-- The `MarketPosition` entity of the schema: identity fields plus the six
accounting fields. -/
structure MarketPosition where
  user : String
  market : String
  outcomeIndex : Int
  quantityBought : Int
  quantitySold : Int
  netQuantity : Int
  valueBought : Int
  valueSold : Int
  netValue : Int
deriving Repr, DecidableEq

/-- The entity id of a `MarketPosition`: `user + market + outcomeIndex.toString()`. -/
def MarketPosition.id (p : MarketPosition) : String :=
  p.user ++ p.market ++ toString p.outcomeIndex

/-- The id under which the position of `(user, market, outcomeIndex)` is stored. -/
def positionKey (user market : String) (outcomeIndex : Int) : String :=
  user ++ market ++ toString outcomeIndex

/-- The entity store: id ↦ MarketPosition. -/
abbrev Store := List (String × MarketPosition)

/-- `MarketPosition.load`. -/
def Store.load : Store → String → Option MarketPosition
  | [], _ => none
  | (k, p) :: rest, key => if k = key then some p else Store.load rest key

/-- `position.save()`: upsert under the position's id. -/
def Store.save : Store → MarketPosition → Store
  | [], p => [(p.id, p)]
  | (k, q) :: rest, p => if k = p.id then (p.id, p) :: rest else (k, q) :: Store.save rest p

/-- The diagnostics the engine can emit through `log.error`. -/
inductive Diag where
  | transactionNotFound (hash : String)
  | invalidPosition (user : String) (outcomeIndex : String) (market : String)
  | conditionNotResolved (conditionId : String)
deriving Repr, DecidableEq

/-- The runtime aborts of the AssemblyScript mapping. -/
inductive Trap where
  | nullDeref
  | indexOutOfRange
  | divByZero
  | emptyArrayPop
deriving Repr, DecidableEq

/-- The `Transaction` entity as read by the trade reducer. -/
structure Transaction where
  user : String
  market : String
  outcomeIndex : Int
  type : String
  outcomeTokensAmount : Int
  tradeAmount : Int
deriving Repr, DecidableEq

/-- The `Condition` entity as read by the redemption reducer; the payout
fields are absent (`none`) until the condition resolves. -/
structure Condition where
  id : String
  payoutNumerators : Option (List Int)
  payoutDenominator : Option Int
deriving Repr, DecidableEq

/-- The read-only external entities: `Transaction` by transaction hash,
`FixedProductMarketMaker.outcomeSlotCount` by market-maker address,
`Condition` by condition id. -/
structure External where
  transactions : String → Option Transaction
  marketMakers : String → Option Int
  conditions : String → Option Condition

/-- `getMarketPosition`: loads the stored position for the key or synthesizes
a zero-valued one (not yet persisted). -/
def getMarketPosition (store : Store) (user market : String) (outcomeIndex : Int) :
    MarketPosition :=
  match Store.load store (user ++ market ++ toString outcomeIndex) with
  | some position => position
  | none =>
    { user := user, market := market, outcomeIndex := outcomeIndex,
      quantityBought := bigZero, quantitySold := bigZero, netQuantity := bigZero,
      valueBought := bigZero, valueSold := bigZero, netValue := bigZero }

/-- The recomputation step of `updateNetPositionAndSave`. -/
def reconcile (position : MarketPosition) : MarketPosition :=
  { position with
    netQuantity := position.quantityBought - position.quantitySold,
    netValue := position.valueBought - position.valueSold }

/-- `updateNetPositionAndSave`: recompute the net fields, log if the net
quantity went negative (without clamping or aborting), persist. -/
def updateNetPositionAndSave (store : Store) (logs : List Diag)
    (position : MarketPosition) : Store × List Diag :=
  let position := reconcile position
  let logs :=
    if position.netQuantity < bigZero then
      logs ++ [Diag.invalidPosition position.user (toString position.outcomeIndex) position.market]
    else logs
  (Store.save store position, logs)

/-- `updateMarketPositionFromTrade`. When no `Transaction` entity exists for
the hash the source logs the lookup failure but has no `return`: it falls
through to `transaction.user` on a null reference, which aborts the mapping
— modelled as `Trap.nullDeref` after the single diagnostic. -/
def updateMarketPositionFromTrade (ext : External) (store : Store) (txHash : String) :
    List Diag × Except Trap Store :=
  match ext.transactions txHash with
  | none => ([Diag.transactionNotFound txHash], .error Trap.nullDeref)
  | some transaction =>
    let position := getMarketPosition store transaction.user transaction.market
      transaction.outcomeIndex
    let position :=
      if transaction.type = "Buy" then
        { position with
          quantityBought := position.quantityBought + transaction.outcomeTokensAmount,
          valueBought := position.valueBought + transaction.tradeAmount }
      else
        { position with
          quantitySold := position.quantitySold + transaction.outcomeTokensAmount,
          valueSold := position.valueSold + transaction.tradeAmount }
    let next := updateNetPositionAndSave store [] position
    (next.2, .ok next.1)

/-- The per-outcome loop shared by the split, merge and liquidity reducers:
for each index, load the position, apply the per-position update, reconcile
and persist. -/
def posUpdateLoop (user market : String) (upd : Int → MarketPosition → MarketPosition) :
    List Int → Store → List Diag → Store × List Diag
  | [], store, logs => (store, logs)
  | outcomeIndex :: rest, store, logs =>
    let position := getMarketPosition store user market outcomeIndex
    let next := updateNetPositionAndSave store logs (upd outcomeIndex position)
    posUpdateLoop user market upd rest next.1 next.2

/-- `updateMarketPositionsFromSplit`: each outcome gains `amount` tokens
valued at `amount / totalSlots` each. A missing market maker aborts
(`marketMaker.outcomeSlotCount` on null). -/
def updateMarketPositionsFromSplit (ext : External) (store : Store)
    (marketMakerAddress userAddress : String) (amount : Int) :
    List Diag × Except Trap Store :=
  match ext.marketMakers marketMakerAddress with
  | none => ([], .error Trap.nullDeref)
  | some totalSlots =>
    let next := posUpdateLoop userAddress marketMakerAddress
      (fun _ position =>
        { position with
          quantityBought := position.quantityBought + amount,
          valueBought := position.valueBought + bigDiv amount totalSlots })
      ((List.range totalSlots.toNat).map Int.ofNat) store []
    (next.2, .ok next.1)

/-- `updateMarketPositionsFromMerge`: each outcome loses `amount` tokens
valued at `amount / totalSlots` each. -/
def updateMarketPositionsFromMerge (ext : External) (store : Store)
    (marketMakerAddress userAddress : String) (amount : Int) :
    List Diag × Except Trap Store :=
  match ext.marketMakers marketMakerAddress with
  | none => ([], .error Trap.nullDeref)
  | some totalSlots =>
    let next := posUpdateLoop userAddress marketMakerAddress
      (fun _ position =>
        { position with
          quantitySold := position.quantitySold + amount,
          valueSold := position.valueSold + bigDiv amount totalSlots })
      ((List.range totalSlots.toNat).map Int.ofNat) store []
    (next.2, .ok next.1)

/-- The per-position mutation of the redemption loop: the full balance
(`netQuantity`) moves to `quantitySold`, valued at
`netQuantity * payoutNumerators[redeemedSlot.toI32()] / payoutDenominator`
with truncating division. -/
def redemptionUpd (payoutNumerators : List Int) (payoutDenominator : Int)
    (redeemedSlot : Int) (position : MarketPosition) : MarketPosition :=
  let numerator := payoutNumerators.getD (toI32 redeemedSlot).toNat bigZero
  let redemptionValue := bigDiv (position.netQuantity * numerator) payoutDenominator
  { position with
    quantitySold := position.quantitySold + position.netQuantity,
    valueSold := position.valueSold + redemptionValue }

/-- The per-slot loop of `updateMarketPositionsFromRedemption`:
`payoutNumerators[redeemedSlot.toI32()]` aborts when the index is out of
range, and the `div` aborts on a zero denominator. -/
def redemptionLoop (userAddress marketMakerAddress : String)
    (payoutNumerators : List Int) (payoutDenominator : Int) :
    List Int → Store → List Diag → List Diag × Except Trap Store
  | [], store, logs => (logs, .ok store)
  | redeemedSlot :: rest, store, logs =>
    let position := getMarketPosition store userAddress marketMakerAddress redeemedSlot
    if 0 ≤ toI32 redeemedSlot ∧ (toI32 redeemedSlot).toNat < payoutNumerators.length then
      if payoutDenominator = 0 then (logs, .error Trap.divByZero)
      else
        let next := updateNetPositionAndSave store logs
          (redemptionUpd payoutNumerators payoutDenominator redeemedSlot position)
        redemptionLoop userAddress marketMakerAddress payoutNumerators payoutDenominator
          rest next.1 next.2
    else (logs, .error Trap.indexOutOfRange)

/-- `updateMarketPositionsFromRedemption`. A missing condition aborts
(`condition.payoutNumerators` on null); an unresolved condition (either
payout field null) emits one diagnostic and returns without touching any
position. -/
def updateMarketPositionsFromRedemption (ext : External) (store : Store)
    (marketMakerAddress userAddress conditionId : String) (indexSets : List Int) :
    List Diag × Except Trap Store :=
  match ext.conditions conditionId with
  | none => ([], .error Trap.nullDeref)
  | some condition =>
    match condition.payoutNumerators, condition.payoutDenominator with
    | some payoutNumerators, some payoutDenominator =>
      redemptionLoop userAddress marketMakerAddress payoutNumerators payoutDenominator
        indexSets store []
    | _, _ => ([Diag.conditionNotResolved condition.id], .ok store)

/-- The comparator `(a, b) => a.minus(b).toI32()` used to sort `amountsAdded`:
the difference is truncated to 32 bits, so it wraps for large amounts. -/
def amountsCmp (a b : Int) : Int := toI32 (a - b)

/-- One step of AssemblyScript's insertion sort (the std sort for short
arrays): the new element scans the sorted prefix from the right and moves
left past every element `b` with `cmp x b < 0`. -/
def insertFromRight (cmp : Int → Int → Int) (x : Int) (l : List Int) : List Int :=
  let r := l.reverse
  let moved := r.takeWhile (fun b => cmp x b < 0)
  let rest := r.dropWhile (fun b => cmp x b < 0)
  rest.reverse ++ x :: moved.reverse

/-- AssemblyScript's `Array.sort(cmp)` on a short array: insertion sort. -/
def insertionSortBy (cmp : Int → Int → Int) (l : List Int) : List Int :=
  l.foldl (fun acc x => insertFromRight cmp x acc) []

/-- `amountsAdded.slice().sort((a,b) => a.minus(b).toI32()).pop()`: the last
element of the comparator-sorted copy; `pop()` on an empty array aborts. -/
def addedFundsOf (amountsAdded : List Int) : Option Int :=
  (insertionSortBy amountsCmp amountsAdded).getLast?

/-- The first loop of `updateMarketPositionFromLiquidityAdded`: sum of
`addedFunds - amountsAdded[i]` over all outcomes. -/
def totalRefundedOutcomeTokensOf (addedFunds : Int) (amountsAdded : List Int) : Int :=
  amountsAdded.foldl (fun acc a => acc + (addedFunds - a)) bigZero

/-- `refundedAmount` for one outcome: `addedFunds.minus(amountsAdded[outcomeIndex])`. -/
def refundedAmountAt (addedFunds : Int) (amountsAdded : List Int) (i : Nat) : Int :=
  addedFunds - amountsAdded.getD i bigZero

/-- `refundValue` for one outcome: the refund weighted by the outcome's share
of all refunded tokens, guarded against division by zero. -/
def refundValueAt (totalRefundedValue totalRefundedOutcomeTokens refundedAmount : Int) : Int :=
  if bigZero < totalRefundedOutcomeTokens then
    bigDiv (totalRefundedValue * refundedAmount) totalRefundedOutcomeTokens
  else bigZero

/-- `updateMarketPositionFromLiquidityAdded`. -/
def updateMarketPositionFromLiquidityAdded (store : Store) (fpmmAddress funder : String)
    (amountsAdded : List Int) (sharesMinted : Int) : List Diag × Except Trap Store :=
  match addedFundsOf amountsAdded with
  | none => ([], .error Trap.emptyArrayPop)
  | some addedFunds =>
    let totalRefundedValue := addedFunds - sharesMinted
    let totalRefundedOutcomeTokens := totalRefundedOutcomeTokensOf addedFunds amountsAdded
    let next := posUpdateLoop funder fpmmAddress
      (fun outcomeIndex position =>
        let refundedAmount := refundedAmountAt addedFunds amountsAdded outcomeIndex.toNat
        { position with
          quantityBought := position.quantityBought + refundedAmount,
          valueBought := position.valueBought +
            refundValueAt totalRefundedValue totalRefundedOutcomeTokens refundedAmount })
      ((List.range amountsAdded.length).map Int.ofNat) store []
    (next.2, .ok next.1)

/-- `updateMarketPositionFromLiquidityRemoved`: `sharesBurnt / amountsRemoved.length`
aborts when the array is empty (division by zero). -/
def updateMarketPositionFromLiquidityRemoved (store : Store) (fpmmAddress funder : String)
    (amountsRemoved : List Int) (sharesBurnt : Int) : List Diag × Except Trap Store :=
  if amountsRemoved.length = 0 then ([], .error Trap.divByZero)
  else
    let pricePaidForTokens := bigDiv sharesBurnt (Int.ofNat amountsRemoved.length)
    let next := posUpdateLoop funder fpmmAddress
      (fun outcomeIndex position =>
        { position with
          quantityBought := position.quantityBought + amountsRemoved.getD outcomeIndex.toNat bigZero,
          valueBought := position.valueBought + pricePaidForTokens })
      ((List.range amountsRemoved.length).map Int.ofNat) store []
    (next.2, .ok next.1)

/-- The events the engine consumes, one reducer per event. -/
inductive Event where
  | trade (txHash : String)
  | split (marketMakerAddress userAddress : String) (amount : Int)
  | merge (marketMakerAddress userAddress : String) (amount : Int)
  | redemption (marketMakerAddress userAddress conditionId : String) (indexSets : List Int)
  | liquidityAdded (fpmmAddress funder : String) (amountsAdded : List Int) (sharesMinted : Int)
  | liquidityRemoved (fpmmAddress funder : String) (amountsRemoved : List Int) (sharesBurnt : Int)
deriving Repr

/-- Dispatch one event to its reducer. -/
def applyEvent (ext : External) (store : Store) : Event → List Diag × Except Trap Store
  | .trade txHash => updateMarketPositionFromTrade ext store txHash
  | .split mm user amount => updateMarketPositionsFromSplit ext store mm user amount
  | .merge mm user amount => updateMarketPositionsFromMerge ext store mm user amount
  | .redemption mm user conditionId indexSets =>
    updateMarketPositionsFromRedemption ext store mm user conditionId indexSets
  | .liquidityAdded fpmm funder amounts shares =>
    updateMarketPositionFromLiquidityAdded store fpmm funder amounts shares
  | .liquidityRemoved fpmm funder amounts shares =>
    updateMarketPositionFromLiquidityRemoved store fpmm funder amounts shares

/-- Serialized application of a stream of events; an abort stops the stream. -/
def processEvents (ext : External) (store : Store) : List Event → Except Trap Store
  | [] => .ok store
  | e :: rest =>
    match (applyEvent ext store e).2 with
    | .error t => .error t
    | .ok store' => processEvents ext store' rest

/-! ## Store lemmas and the reconciliation invariant -/

/-- A position whose net fields agree with its gross fields. -/
def reconciledP (p : MarketPosition) : Prop :=
  p.netQuantity = p.quantityBought - p.quantitySold ∧
  p.netValue = p.valueBought - p.valueSold

/-- Every stored position is reconciled and sits under its own id — true of
every store the engine can produce, since the only save is
`updateNetPositionAndSave`. -/
def StoreInv (s : Store) : Prop :=
  ∀ k p, Store.load s k = some p → reconciledP p ∧ MarketPosition.id p = k

/-- Gross `quantityBought` stored under `k`; zero when absent, matching the
zero-valued position `getMarketPosition` synthesizes. -/
def qbAt (s : Store) (k : String) : Int :=
  match Store.load s k with
  | some p => p.quantityBought
  | none => bigZero

/-- Gross `quantitySold` stored under `k`, zero when absent. -/
def qsAt (s : Store) (k : String) : Int :=
  match Store.load s k with
  | some p => p.quantitySold
  | none => bigZero

/-- Gross `valueBought` stored under `k`, zero when absent. -/
def vbAt (s : Store) (k : String) : Int :=
  match Store.load s k with
  | some p => p.valueBought
  | none => bigZero

/-- Gross `valueSold` stored under `k`, zero when absent. -/
def vsAt (s : Store) (k : String) : Int :=
  match Store.load s k with
  | some p => p.valueSold
  | none => bigZero

/-! ## Concrete inputs used by witnesses and counterexamples -/

def uW : String := "alice"
def mW : String := "market0"
def hashW : String := "0xabc"
def cidW : String := "0xcond"
def fpmmW : String := "fpmm0"
def funderW : String := "funder0"
def amountsW : List Int := [100, 80, 60]
def amountsEqW : List Int := [100, 100, 100]
def amountsOverflowW : List Int := [4294967296, 0]

/-- An external world with no stored entities at all. -/
def extEmpty : External :=
  { transactions := fun _ => none, marketMakers := fun _ => none, conditions := fun _ => none }

/-- An external world holding one unresolved condition under `cidW`. -/
def extUnresolved : External :=
  { transactions := fun _ => none, marketMakers := fun _ => none,
    conditions := fun c => if c = cidW then some ⟨cidW, none, none⟩ else none }

/-- An external world holding one market maker with two outcome slots under
`mW` and one resolved condition under `cidW`. -/
def extResolved : External :=
  { transactions := fun _ => none,
    marketMakers := fun c => if c = mW then some 2 else none,
    conditions := fun c => if c = cidW then some ⟨cidW, some [1, 0], some 1⟩ else none }

/-- A position that has sold more than it bought. -/
def posNegW : MarketPosition :=
  { user := uW, market := mW, outcomeIndex := 0, quantityBought := 1, quantitySold := 3,
    netQuantity := 0, valueBought := 0, valueSold := 0, netValue := 0 }

/-- The store produced by one split of amount 10 over the two-outcome market
`mW` by `uW`, starting from the empty store. -/
def storeSplitW : Store :=
  [(uW ++ mW ++ toString (0 : Int),
    { user := uW, market := mW, outcomeIndex := 0, quantityBought := 10, quantitySold := 0,
      netQuantity := 10, valueBought := 5, valueSold := 0, netValue := 5 }),
   (uW ++ mW ++ toString (1 : Int),
    { user := uW, market := mW, outcomeIndex := 1, quantityBought := 10, quantitySold := 0,
      netQuantity := 10, valueBought := 5, valueSold := 0, netValue := 5 })]

theorem storeInv_nil : StoreInv [] := by
  intro k p h
  simp [Store.load] at h

theorem load_save_self (s : Store) (p : MarketPosition) :
    Store.load (Store.save s p) p.id = some p := by
  induction s with
  | nil => simp [Store.save, Store.load]
  | cons hd tl ih =>
    obtain ⟨k, q⟩ := hd
    by_cases hk : k = p.id
    · simp [Store.save, hk, Store.load]
    · simp [Store.save, hk, Store.load, ih]

theorem load_save_of_ne (s : Store) (p : MarketPosition) (k : String)
    (h : k ≠ p.id) : Store.load (Store.save s p) k = Store.load s k := by
  induction s with
  | nil => simp [Store.save, Store.load, Ne.symm h]
  | cons hd tl ih =>
    obtain ⟨k', q⟩ := hd
    by_cases hk : k' = p.id
    · subst hk
      simp [Store.save, Store.load, Ne.symm h]
    · simp [Store.save, hk, Store.load]
      by_cases hk2 : k' = k <;> simp [hk2, ih]

theorem save_inv {s : Store} (hs : StoreInv s) {p : MarketPosition}
    (hp : reconciledP p) : StoreInv (Store.save s p) := by
  intro k q hq
  by_cases hk : k = p.id
  · subst hk
    rw [load_save_self] at hq
    cases hq
    exact ⟨hp, rfl⟩
  · rw [load_save_of_ne _ _ _ hk] at hq
    exact hs k q hq

theorem getMarketPosition_id (s : Store) (hs : StoreInv s) (u m : String) (i : Int) :
    (getMarketPosition s u m i).id = positionKey u m i := by
  unfold getMarketPosition positionKey
  cases h : Store.load s (u ++ m ++ toString i) with
  | none => rfl
  | some p => exact (hs _ p h).2

theorem getMarketPosition_reconciled (s : Store) (hs : StoreInv s) (u m : String) (i : Int) :
    reconciledP (getMarketPosition s u m i) := by
  unfold getMarketPosition
  cases h : Store.load s (u ++ m ++ toString i) with
  | none => exact ⟨rfl, rfl⟩
  | some p => exact (hs _ p h).1

theorem reconcile_reconciled (p : MarketPosition) : reconciledP (reconcile p) :=
  ⟨rfl, rfl⟩

theorem reconcile_id (p : MarketPosition) : (reconcile p).id = p.id := rfl

theorem updateNetPositionAndSave_fst (s : Store) (logs : List Diag) (p : MarketPosition) :
    (updateNetPositionAndSave s logs p).1 = Store.save s (reconcile p) := by
  unfold updateNetPositionAndSave
  by_cases h : (reconcile p).netQuantity < bigZero <;> simp [h]

theorem updateNetPositionAndSave_inv {s : Store} (hs : StoreInv s)
    (logs : List Diag) (p : MarketPosition) :
    StoreInv (updateNetPositionAndSave s logs p).1 := by
  rw [updateNetPositionAndSave_fst]
  exact save_inv hs (reconcile_reconciled p)

theorem getMarketPosition_gross (s : Store) (u m : String) (i : Int) :
    (getMarketPosition s u m i).quantityBought = qbAt s (positionKey u m i) ∧
    (getMarketPosition s u m i).quantitySold = qsAt s (positionKey u m i) ∧
    (getMarketPosition s u m i).valueBought = vbAt s (positionKey u m i) ∧
    (getMarketPosition s u m i).valueSold = vsAt s (positionKey u m i) := by
  unfold getMarketPosition qbAt qsAt vbAt vsAt positionKey
  cases h : Store.load s (u ++ m ++ toString i) <;> exact ⟨rfl, rfl, rfl, rfl⟩

theorem qbAt_of_load {s : Store} {k : String} {p : MarketPosition}
    (h : Store.load s k = some p) :
    qbAt s k = p.quantityBought ∧ qsAt s k = p.quantitySold ∧
    vbAt s k = p.valueBought ∧ vsAt s k = p.valueSold := by
  unfold qbAt qsAt vbAt vsAt
  rw [h]
  exact ⟨rfl, rfl, rfl, rfl⟩

theorem posUpdateLoop_cons (u m : String) (upd : Int → MarketPosition → MarketPosition)
    (i : Int) (ks : List Int) (s : Store) (logs : List Diag) :
    posUpdateLoop u m upd (i :: ks) s logs =
      posUpdateLoop u m upd ks
        (updateNetPositionAndSave s logs (upd i (getMarketPosition s u m i))).1
        (updateNetPositionAndSave s logs (upd i (getMarketPosition s u m i))).2 := rfl

theorem posUpdateLoop_inv (u m : String) (upd : Int → MarketPosition → MarketPosition)
    (ks : List Int) : ∀ (s : Store) (logs : List Diag), StoreInv s →
    StoreInv (posUpdateLoop u m upd ks s logs).1 := by
  induction ks with
  | nil => intro s logs hs; exact hs
  | cons i ks ih =>
    intro s logs hs
    rw [posUpdateLoop_cons]
    exact ih _ _ (updateNetPositionAndSave_inv hs _ _)

/-- The per-outcome loop with an update that shifts the four gross fields by
constants `dq ds dv dw` (and keeps the identity fields): a key the loop never
touches is untouched, and a key hit `h` times holds a reconciled position
whose gross fields grew by `h` times the deltas. -/
theorem posUpdateLoop_constDelta (u m : String)
    (upd : Int → MarketPosition → MarketPosition) (dq ds dv dw : Int) (ks : List Int) :
    ∀ (s : Store) (logs : List Diag), StoreInv s →
    (∀ i ∈ ks, ∀ p : MarketPosition,
      (upd i p).user = p.user ∧ (upd i p).market = p.market ∧
      (upd i p).outcomeIndex = p.outcomeIndex ∧
      (upd i p).quantityBought = p.quantityBought + dq ∧
      (upd i p).quantitySold = p.quantitySold + ds ∧
      (upd i p).valueBought = p.valueBought + dv ∧
      (upd i p).valueSold = p.valueSold + dw) →
    ∀ k : String,
      (List.countP (fun i => decide (positionKey u m i = k)) ks = 0 →
        Store.load (posUpdateLoop u m upd ks s logs).1 k = Store.load s k) ∧
      (∀ n : Nat, List.countP (fun i => decide (positionKey u m i = k)) ks = n → 0 < n →
        ∃ p, Store.load (posUpdateLoop u m upd ks s logs).1 k = some p ∧
          p.quantityBought = qbAt s k + n * dq ∧
          p.quantitySold = qsAt s k + n * ds ∧
          p.valueBought = vbAt s k + n * dv ∧
          p.valueSold = vsAt s k + n * dw ∧
          p.netQuantity = p.quantityBought - p.quantitySold ∧
          p.netValue = p.valueBought - p.valueSold) := by
  induction ks with
  | nil =>
    intro s logs _ _ k
    refine ⟨fun _ => rfl, fun n hn hpos => ?_⟩
    rw [List.countP_nil] at hn
    omega
  | cons i ks ih =>
    intro s logs hs hupd k
    have hupd_i := hupd i (List.mem_cons_self i ks)
    have hupd_ks : ∀ j ∈ ks, ∀ p : MarketPosition,
        (upd j p).user = p.user ∧ (upd j p).market = p.market ∧
        (upd j p).outcomeIndex = p.outcomeIndex ∧
        (upd j p).quantityBought = p.quantityBought + dq ∧
        (upd j p).quantitySold = p.quantitySold + ds ∧
        (upd j p).valueBought = p.valueBought + dv ∧
        (upd j p).valueSold = p.valueSold + dw :=
      fun j hj => hupd j (List.mem_cons_of_mem i hj)
    set pos := getMarketPosition s u m i with hpos
    set p1 := reconcile (upd i pos) with hp1
    have hs1fst : (updateNetPositionAndSave s logs (upd i pos)).1 = Store.save s p1 :=
      updateNetPositionAndSave_fst s logs (upd i pos)
    have hp1id : p1.id = positionKey u m i := by
      have h1 : p1.id = (upd i pos).id := reconcile_id _
      have h2 : (upd i pos).id = pos.id := by
        obtain ⟨hu, hm, ho, _⟩ := hupd_i pos
        unfold MarketPosition.id
        rw [hu, hm, ho]
      rw [h1, h2, getMarketPosition_id s hs u m i]
    have hinv1 : StoreInv (Store.save s p1) := save_inv hs (reconcile_reconciled _)
    have hgross := getMarketPosition_gross s u m i
    -- gross fields of p1 relative to the store
    obtain ⟨hδu, hδm, hδo, hδqb, hδqs, hδvb, hδvs⟩ := hupd_i pos
    have hp1qb : p1.quantityBought = qbAt s (positionKey u m i) + dq := by
      show (upd i pos).quantityBought = _
      rw [hδqb, hgross.1]
    have hp1qs : p1.quantitySold = qsAt s (positionKey u m i) + ds := by
      show (upd i pos).quantitySold = _
      rw [hδqs, hgross.2.1]
    have hp1vb : p1.valueBought = vbAt s (positionKey u m i) + dv := by
      show (upd i pos).valueBought = _
      rw [hδvb, hgross.2.2.1]
    have hp1vs : p1.valueSold = vsAt s (positionKey u m i) + dw := by
      show (upd i pos).valueSold = _
      rw [hδvs, hgross.2.2.2]
    have hp1net : p1.netQuantity = p1.quantityBought - p1.quantitySold ∧
        p1.netValue = p1.valueBought - p1.valueSold := reconcile_reconciled (upd i pos)
    have ihk := ih (Store.save s p1) (updateNetPositionAndSave s logs (upd i pos)).2
      hinv1 hupd_ks k
    rw [posUpdateLoop_cons, hs1fst]
    by_cases hik : positionKey u m i = k
    · -- the head index writes exactly the key `k`
      have hload1 : Store.load (Store.save s p1) k = some p1 := by
        rw [← hik, ← hp1id]
        exact load_save_self s p1
      have hcount : List.countP (fun j => decide (positionKey u m j = k)) (i :: ks) =
          List.countP (fun j => decide (positionKey u m j = k)) ks + 1 := by
        rw [List.countP_cons]
        simp [hik]
      obtain ⟨hb1, hb2, hb3, hb4⟩ := qbAt_of_load hload1
      constructor
      · intro h0
        rw [hcount] at h0
        omega
      · intro n hn _
        rw [hcount] at hn
        subst hn
        by_cases hzero : List.countP (fun j => decide (positionKey u m j = k)) ks = 0
        · have hload := (ihk.1 hzero)
          rw [hzero]
          refine ⟨p1, by rw [hload, hload1], ?_, ?_, ?_, ?_, hp1net.1, hp1net.2⟩
          · rw [hp1qb, hik]; push_cast; ring
          · rw [hp1qs, hik]; push_cast; ring
          · rw [hp1vb, hik]; push_cast; ring
          · rw [hp1vs, hik]; push_cast; ring
        · obtain ⟨p, hp, h1, h2, h3, h4, h5, h6⟩ :=
            ihk.2 (List.countP (fun j => decide (positionKey u m j = k)) ks) rfl
              (Nat.pos_of_ne_zero hzero)
          refine ⟨p, hp, ?_, ?_, ?_, ?_, h5, h6⟩
          · rw [h1, hb1, hp1qb, hik]; push_cast; ring
          · rw [h2, hb2, hp1qs, hik]; push_cast; ring
          · rw [h3, hb3, hp1vb, hik]; push_cast; ring
          · rw [h4, hb4, hp1vs, hik]; push_cast; ring
    · -- the head index writes a different key
      have hload1 : Store.load (Store.save s p1) k = Store.load s k := by
        refine load_save_of_ne s p1 k ?_
        rw [hp1id]
        exact fun e => hik (e.symm)
      have hcount : List.countP (fun j => decide (positionKey u m j = k)) (i :: ks) =
          List.countP (fun j => decide (positionKey u m j = k)) ks := by
        rw [List.countP_cons]
        simp [hik]
      have hqb1 : qbAt (Store.save s p1) k = qbAt s k := by unfold qbAt; rw [hload1]
      have hqs1 : qsAt (Store.save s p1) k = qsAt s k := by unfold qsAt; rw [hload1]
      have hvb1 : vbAt (Store.save s p1) k = vbAt s k := by unfold vbAt; rw [hload1]
      have hvs1 : vsAt (Store.save s p1) k = vsAt s k := by unfold vsAt; rw [hload1]
      constructor
      · intro h0
        rw [hcount] at h0
        rw [ihk.1 h0, hload1]
      · intro n hn hpos'
        rw [hcount] at hn
        obtain ⟨p, hp, h1, h2, h3, h4, h5, h6⟩ := ihk.2 n hn hpos'
        exact ⟨p, hp, by rw [h1, hqb1], by rw [h2, hqs1], by rw [h3, hvb1],
          by rw [h4, hvs1], h5, h6⟩

/-! ## The claims -/

/-- Claim C8: when the recomputed net quantity is negative the reconciler
emits the diagnostic but still persists the position with the negative,
unclamped value: the result is exactly the save of the reconciled position
plus one appended diagnostic, the position is loadable under its id, and its
stored `netQuantity` is the (negative) difference of the gross fields. -/
theorem reconciler_logs_and_saves_negative (store : Store) (logs : List Diag)
    (position : MarketPosition)
    (hneg : position.quantityBought - position.quantitySold < 0) :
    updateNetPositionAndSave store logs position =
      (Store.save store (reconcile position),
        logs ++ [Diag.invalidPosition position.user (toString position.outcomeIndex)
          position.market]) ∧
    Store.load (updateNetPositionAndSave store logs position).1 (reconcile position).id =
      some (reconcile position) ∧
    (reconcile position).netQuantity = position.quantityBought - position.quantitySold := by
  have hcond : (reconcile position).netQuantity < bigZero := hneg
  refine ⟨?_, ?_, rfl⟩
  · show (Store.save store (reconcile position),
        if (reconcile position).netQuantity < bigZero then
          logs ++ [Diag.invalidPosition (reconcile position).user
            (toString (reconcile position).outcomeIndex) (reconcile position).market]
        else logs) = _
    rw [if_pos hcond]
    rfl
  · rw [updateNetPositionAndSave_fst]
    exact load_save_self store (reconcile position)

theorem reconciler_logs_and_saves_negative_witness :
    updateNetPositionAndSave [] [] posNegW =
      (Store.save [] (reconcile posNegW),
        [] ++ [Diag.invalidPosition posNegW.user (toString posNegW.outcomeIndex)
          posNegW.market]) ∧
    Store.load (updateNetPositionAndSave [] [] posNegW).1 (reconcile posNegW).id =
      some (reconcile posNegW) ∧
    (reconcile posNegW).netQuantity = posNegW.quantityBought - posNegW.quantitySold :=
  reconciler_logs_and_saves_negative [] [] posNegW (by decide)

/-- Claim C6: redeeming against a condition whose payout fields have not both
been set emits exactly one diagnostic and returns the store untouched: no
position is mutated or persisted. -/
theorem redemption_unresolved_skips (ext : External) (store : Store)
    (marketMakerAddress userAddress conditionId : String) (indexSets : List Int)
    (condition : Condition) (hc : ext.conditions conditionId = some condition)
    (hunres : condition.payoutNumerators = none ∨ condition.payoutDenominator = none) :
    updateMarketPositionsFromRedemption ext store marketMakerAddress userAddress
      conditionId indexSets =
      ([Diag.conditionNotResolved condition.id], .ok store) := by
  obtain ⟨cid, pn, pd⟩ := condition
  unfold updateMarketPositionsFromRedemption
  rw [hc]
  rcases hunres with h | h
  · simp only at h
    subst h
    rfl
  · simp only at h
    subst h
    cases pn <;> rfl

theorem redemption_unresolved_skips_witness :
    updateMarketPositionsFromRedemption extUnresolved [] mW uW cidW [0, 1] =
      ([Diag.conditionNotResolved (Condition.mk cidW none none).id], .ok []) :=
  redemption_unresolved_skips extUnresolved [] mW uW cidW [0, 1]
    (Condition.mk cidW none none) (by decide) (Or.inl rfl)

/-- Claim C1 (code bug): a trade event whose transaction hash has no stored
`Transaction` record. The source logs the lookup failure but has no `return`,
so it goes on to dereference the null `Transaction`: the mapping aborts
(`Trap.nullDeref`) instead of cleanly skipping the event. This theorem
evaluates the reducer at such an input: one diagnostic is emitted and the
result is the abort, not a normal completion. -/
theorem trade_missingTransaction_traps :
    updateMarketPositionFromTrade extEmpty [] hashW =
      ([Diag.transactionNotFound hashW], .error Trap.nullDeref) := rfl

/-- Claim C5 (code bug): `addedFunds` is computed by sorting with the
comparator `(a, b) => a.minus(b).toI32()`, whose difference wraps modulo
2^32. On `[2^32, 0]` the comparator returns 0 for both orders, the sort
leaves the array as is, and `pop()` yields 0 — not the maximum 2^32. -/
theorem addedFunds_not_max_on_overflow :
    addedFundsOf amountsOverflowW = some 0 ∧
    List.foldr max 0 amountsOverflowW = 4294967296 ∧ (0 : Int) ≠ 4294967296 := by
  refine ⟨by decide, by decide, by decide⟩

/-- Claim C7: the worked liquidity-added example. With
`amountsAdded = [100, 80, 60]` and `sharesMinted = 60` on an empty store:
`addedFunds = 100`, the refunded amounts are `[0, 20, 40]`,
`totalRefundedOutcomeTokens = 60`, `totalRefundedValue = 100 - 60 = 40`, and
the position at outcome index 2 ends with `quantityBought = 40` and
`valueBought = 40 * 40 / 60 = 26` (truncating division). -/
theorem liquidityAdded_example_holds :
    addedFundsOf amountsW = some 100 ∧
    (refundedAmountAt 100 amountsW 0 = 0 ∧ refundedAmountAt 100 amountsW 1 = 20 ∧
      refundedAmountAt 100 amountsW 2 = 40) ∧
    totalRefundedOutcomeTokensOf 100 amountsW = 60 ∧
    (100 : Int) - 60 = 40 ∧ bigDiv (40 * 40) 60 = 26 ∧
    ∃ s', (updateMarketPositionFromLiquidityAdded [] fpmmW funderW amountsW 60).2 = .ok s' ∧
      (getMarketPosition s' funderW fpmmW 2).quantityBought = 40 ∧
      (getMarketPosition s' funderW fpmmW 2).valueBought = 26 := by
  refine ⟨by decide, ⟨by decide, by decide, by decide⟩, by decide, by decide, by decide,
    ⟨_, rfl, by decide, by decide⟩⟩

/-! ## Claim C3: every reducer run preserves the reconciliation invariant -/

theorem redemptionLoop_inv (u m : String) (ns : List Int) (d : Int) (ks : List Int) :
    ∀ (s : Store) (logs logs' : List Diag) (s' : Store),
    redemptionLoop u m ns d ks s logs = (logs', .ok s') → StoreInv s → StoreInv s' := by
  induction ks with
  | nil =>
    intro s logs logs' s' heq hs
    simp only [redemptionLoop, Prod.mk.injEq, Except.ok.injEq] at heq
    rw [← heq.2]
    exact hs
  | cons t ks ih =>
    intro s logs logs' s' heq hs
    simp only [redemptionLoop] at heq
    split at heq
    · split at heq
      · simp at heq
      · exact ih _ _ _ _ heq (updateNetPositionAndSave_inv hs _ _)
    · simp at heq

theorem applyEvent_inv (ext : External) (s s' : Store) (e : Event)
    (heq : (applyEvent ext s e).2 = .ok s') (hs : StoreInv s) : StoreInv s' := by
  cases e with
  | trade txHash =>
    simp only [applyEvent, updateMarketPositionFromTrade] at heq
    cases htx : ext.transactions txHash with
    | none => rw [htx] at heq; simp at heq
    | some tx =>
      rw [htx] at heq
      simp only [Except.ok.injEq] at heq
      rw [← heq]
      exact updateNetPositionAndSave_inv hs _ _
  | split mm user amount =>
    simp only [applyEvent, updateMarketPositionsFromSplit] at heq
    cases hmm : ext.marketMakers mm with
    | none => rw [hmm] at heq; simp at heq
    | some totalSlots =>
      rw [hmm] at heq
      simp only [Except.ok.injEq] at heq
      rw [← heq]
      exact posUpdateLoop_inv _ _ _ _ _ _ hs
  | merge mm user amount =>
    simp only [applyEvent, updateMarketPositionsFromMerge] at heq
    cases hmm : ext.marketMakers mm with
    | none => rw [hmm] at heq; simp at heq
    | some totalSlots =>
      rw [hmm] at heq
      simp only [Except.ok.injEq] at heq
      rw [← heq]
      exact posUpdateLoop_inv _ _ _ _ _ _ hs
  | redemption mm user conditionId indexSets =>
    simp only [applyEvent, updateMarketPositionsFromRedemption] at heq
    cases hc : ext.conditions conditionId with
    | none => rw [hc] at heq; simp at heq
    | some condition =>
      rw [hc] at heq
      obtain ⟨cid, pn, pd⟩ := condition
      cases pn with
      | none =>
        simp only [Except.ok.injEq] at heq
        rw [← heq]
        exact hs
      | some ns =>
        cases pd with
        | none =>
          simp only [Except.ok.injEq] at heq
          rw [← heq]
          exact hs
        | some d =>
          exact redemptionLoop_inv _ _ _ _ _ _ _ _ _
            (by rw [← heq]) hs
  | liquidityAdded fpmm funder amounts shares =>
    simp only [applyEvent, updateMarketPositionFromLiquidityAdded] at heq
    cases ha : addedFundsOf amounts with
    | none => rw [ha] at heq; simp at heq
    | some addedFunds =>
      rw [ha] at heq
      simp only [Except.ok.injEq] at heq
      rw [← heq]
      exact posUpdateLoop_inv _ _ _ _ _ _ hs
  | liquidityRemoved fpmm funder amounts shares =>
    simp only [applyEvent, updateMarketPositionFromLiquidityRemoved] at heq
    by_cases hlen : amounts.length = 0
    · rw [if_pos hlen] at heq; simp at heq
    · rw [if_neg hlen] at heq
      simp only [Except.ok.injEq] at heq
      rw [← heq]
      exact posUpdateLoop_inv _ _ _ _ _ _ hs

theorem processEvents_inv (ext : External) : ∀ (evs : List Event) (s s' : Store),
    processEvents ext s evs = .ok s' → StoreInv s → StoreInv s' := by
  intro evs
  induction evs with
  | nil =>
    intro s s' heq hs
    simp only [processEvents, Except.ok.injEq] at heq
    rw [← heq]
    exact hs
  | cons e evs ih =>
    intro s s' heq hs
    simp only [processEvents] at heq
    cases hstep : (applyEvent ext s e).2 with
    | error t => rw [hstep] at heq; simp at heq
    | ok s1 =>
      rw [hstep] at heq
      exact ih _ _ heq (applyEvent_inv ext s s1 e hstep hs)

/-- Claim C3: after any sequence of reducer applications starting from a
store satisfying the reconciliation invariant (the empty store in
particular), every persisted position satisfies
`netQuantity = quantityBought - quantitySold` and
`netValue = valueBought - valueSold`: every reducer ends each per-position
update with `updateNetPositionAndSave`. -/
theorem reducers_preserve_net_invariant (ext : External) (store store' : Store)
    (evs : List Event) (h0 : StoreInv store)
    (hrun : processEvents ext store evs = .ok store') :
    ∀ k p, Store.load store' k = some p →
      p.netQuantity = p.quantityBought - p.quantitySold ∧
      p.netValue = p.valueBought - p.valueSold :=
  fun k p hload => (processEvents_inv ext evs store store' hrun h0 k p hload).1

theorem reducers_preserve_net_invariant_witness :
    ((storeSplitW.get ⟨0, by decide⟩).2.netQuantity =
        (storeSplitW.get ⟨0, by decide⟩).2.quantityBought -
          (storeSplitW.get ⟨0, by decide⟩).2.quantitySold ∧
      (storeSplitW.get ⟨0, by decide⟩).2.netValue =
        (storeSplitW.get ⟨0, by decide⟩).2.valueBought -
          (storeSplitW.get ⟨0, by decide⟩).2.valueSold) :=
  reducers_preserve_net_invariant extResolved [] storeSplitW [Event.split mW uW 10]
    storeInv_nil rfl (uW ++ mW ++ toString (0 : Int)) _ rfl

/-! ## Claim C4: split then merge of the same amount is a net no-op -/

theorem getMarketPosition_of_load {s : Store} {u m : String} {i : Int}
    {p : MarketPosition} (h : Store.load s (positionKey u m i) = some p) :
    getMarketPosition s u m i = p := by
  unfold positionKey at h
  unfold getMarketPosition
  rw [h]

theorem getMarketPosition_congr {s s' : Store} (u m : String) (i : Int)
    (h : Store.load s' (positionKey u m i) = Store.load s (positionKey u m i)) :
    getMarketPosition s' u m i = getMarketPosition s u m i := by
  unfold positionKey at h
  unfold getMarketPosition
  rw [h]

theorem net_base (s : Store) (hs : StoreInv s) (u m : String) (i : Int) :
    (getMarketPosition s u m i).netQuantity =
      qbAt s (positionKey u m i) - qsAt s (positionKey u m i) ∧
    (getMarketPosition s u m i).netValue =
      vbAt s (positionKey u m i) - vsAt s (positionKey u m i) := by
  have hrec := getMarketPosition_reconciled s hs u m i
  have hgross := getMarketPosition_gross s u m i
  exact ⟨by rw [hrec.1, hgross.1, hgross.2.1],
    by rw [hrec.2, hgross.2.2.1, hgross.2.2.2]⟩

/-- Claim C4: for every starting store satisfying the reconciliation
invariant, every amount, and every market with `totalSlots ≥ 1` outcome
slots, a split of `amount` followed by a merge of the same `amount` (no
other events between) brings every one of the `totalSlots` positions'
`netQuantity` and `netValue` back to their pre-split values. -/
theorem split_merge_roundTrip (ext : External) (store : Store)
    (marketMakerAddress userAddress : String) (amount : Int) (totalSlots : Int)
    (hs : StoreInv store) (hmm : ext.marketMakers marketMakerAddress = some totalSlots)
    (_hN : 1 ≤ totalSlots) :
    ∃ s1 s2,
      (updateMarketPositionsFromSplit ext store marketMakerAddress userAddress amount).2 =
        .ok s1 ∧
      (updateMarketPositionsFromMerge ext s1 marketMakerAddress userAddress amount).2 =
        .ok s2 ∧
      ∀ i : Nat, i < totalSlots.toNat →
        (getMarketPosition s2 userAddress marketMakerAddress (Int.ofNat i)).netQuantity =
          (getMarketPosition store userAddress marketMakerAddress (Int.ofNat i)).netQuantity ∧
        (getMarketPosition s2 userAddress marketMakerAddress (Int.ofNat i)).netValue =
          (getMarketPosition store userAddress marketMakerAddress (Int.ofNat i)).netValue := by
  unfold updateMarketPositionsFromSplit updateMarketPositionsFromMerge
  rw [hmm]
  refine ⟨_, _, rfl, rfl, ?_⟩
  intro i hi
  set u := userAddress
  set m := marketMakerAddress
  set ks : List Int := (List.range totalSlots.toNat).map Int.ofNat with hks
  set updS : Int → MarketPosition → MarketPosition := fun _ position =>
    { position with
      quantityBought := position.quantityBought + amount,
      valueBought := position.valueBought + bigDiv amount totalSlots } with hupdS
  set updM : Int → MarketPosition → MarketPosition := fun _ position =>
    { position with
      quantitySold := position.quantitySold + amount,
      valueSold := position.valueSold + bigDiv amount totalSlots } with hupdM
  have hδS : ∀ j ∈ ks, ∀ p : MarketPosition,
      (updS j p).user = p.user ∧ (updS j p).market = p.market ∧
      (updS j p).outcomeIndex = p.outcomeIndex ∧
      (updS j p).quantityBought = p.quantityBought + amount ∧
      (updS j p).quantitySold = p.quantitySold + 0 ∧
      (updS j p).valueBought = p.valueBought + bigDiv amount totalSlots ∧
      (updS j p).valueSold = p.valueSold + 0 :=
    fun _ _ p => ⟨rfl, rfl, rfl, rfl, (add_zero _).symm, rfl, (add_zero _).symm⟩
  have hδM : ∀ j ∈ ks, ∀ p : MarketPosition,
      (updM j p).user = p.user ∧ (updM j p).market = p.market ∧
      (updM j p).outcomeIndex = p.outcomeIndex ∧
      (updM j p).quantityBought = p.quantityBought + 0 ∧
      (updM j p).quantitySold = p.quantitySold + amount ∧
      (updM j p).valueBought = p.valueBought + 0 ∧
      (updM j p).valueSold = p.valueSold + bigDiv amount totalSlots :=
    fun _ _ p => ⟨rfl, rfl, rfl, (add_zero _).symm, rfl, (add_zero _).symm, rfl⟩
  set s1 := (posUpdateLoop u m updS ks store []).1 with hs1def
  have hinv1 : StoreInv s1 := posUpdateLoop_inv u m updS ks store [] hs
  set k := positionKey u m (Int.ofNat i) with hk
  have csplit := posUpdateLoop_constDelta u m updS amount 0 (bigDiv amount totalSlots) 0
    ks store [] hs hδS k
  have cmerge := posUpdateLoop_constDelta u m updM 0 amount 0 (bigDiv amount totalSlots)
    ks s1 [] hinv1 hδM k
  set cnt := List.countP (fun j => decide (positionKey u m j = k)) ks with hcnt
  by_cases hzero : cnt = 0
  · have l1 : Store.load s1 k = Store.load store k := csplit.1 hzero
    have l2 : Store.load (posUpdateLoop u m updM ks s1 []).1 k = Store.load s1 k :=
      cmerge.1 hzero
    have hcong := getMarketPosition_congr u m (Int.ofNat i) (l2.trans l1)
    rw [hcong]
    exact ⟨rfl, rfl⟩
  · obtain ⟨p1, hload1, a1, a2, a3, a4, a5, a6⟩ :=
      csplit.2 cnt rfl (Nat.pos_of_ne_zero hzero)
    obtain ⟨p2, hload2, b1, b2, b3, b4, b5, b6⟩ :=
      cmerge.2 cnt rfl (Nat.pos_of_ne_zero hzero)
    obtain ⟨c1, c2, c3, c4⟩ := qbAt_of_load hload1
    have hmp2 : getMarketPosition (posUpdateLoop u m updM ks s1 []).1 u m (Int.ofNat i) = p2 :=
      getMarketPosition_of_load hload2
    have hbase := net_base store hs u m (Int.ofNat i)
    rw [hmp2, hbase.1, hbase.2, ← hk]
    simp only [mul_zero, add_zero] at a1 a2 a3 a4 b1 b2 b3 b4
    constructor
    · rw [b5, b1, b2, c1, c2, a1, a2]
      ring
    · rw [b6, b3, b4, c3, c4, a3, a4]
      ring

theorem split_merge_roundTrip_witness :
    ∃ s1 s2,
      (updateMarketPositionsFromSplit extResolved [] mW uW 7).2 = .ok s1 ∧
      (updateMarketPositionsFromMerge extResolved s1 mW uW 7).2 = .ok s2 ∧
      ∀ i : Nat, i < (2 : Int).toNat →
        (getMarketPosition s2 uW mW (Int.ofNat i)).netQuantity =
          (getMarketPosition [] uW mW (Int.ofNat i)).netQuantity ∧
        (getMarketPosition s2 uW mW (Int.ofNat i)).netValue =
          (getMarketPosition [] uW mW (Int.ofNat i)).netValue :=
  split_merge_roundTrip extResolved [] mW uW 7 2 storeInv_nil (by decide) (by decide)

/-! ## Claim C9: equal contributions leave every position unchanged -/

theorem amountsCmp_self (c : Int) : amountsCmp c c = 0 := by
  show toI32 (c - c) = 0
  rw [sub_self]
  decide

theorem insertFromRight_const (c : Int) (acc : List Int) (hacc : ∀ y ∈ acc, y = c) :
    insertFromRight amountsCmp c acc = acc ++ [c] := by
  unfold insertFromRight
  cases hr : acc.reverse with
  | nil =>
    have hnil : acc = [] := by
      have := congrArg List.reverse hr
      simpa using this
    subst hnil
    rfl
  | cons hd tl =>
    have hhd : hd = c := hacc hd (by rw [← List.mem_reverse, hr]; exact List.mem_cons_self _ _)
    have hp : (decide (amountsCmp c hd < 0)) = false := by
      rw [hhd, amountsCmp_self]
      decide
    simp only [List.takeWhile, List.dropWhile, hp]
    rw [← hr, List.reverse_reverse]
    rfl

theorem insertionSortBy_const (c : Int) :
    ∀ (l acc : List Int), (∀ x ∈ l, x = c) → (∀ y ∈ acc, y = c) →
    List.foldl (fun a x => insertFromRight amountsCmp x a) acc l = acc ++ l := by
  intro l
  induction l with
  | nil => intro acc _ _; simp
  | cons x xs ih =>
    intro acc hl hacc
    have hx : x = c := hl x (List.mem_cons_self x xs)
    rw [List.foldl_cons]
    have hins : insertFromRight amountsCmp x acc = acc ++ [x] := by
      rw [hx]
      exact insertFromRight_const c acc hacc
    rw [hins, ih (acc ++ [x]) (fun y hy => hl y (List.mem_cons_of_mem x hy))
      (fun y hy => by
        rcases List.mem_append.mp hy with h | h
        · exact hacc y h
        · rw [List.mem_singleton.mp h, hx])]
    simp

theorem addedFundsOf_const (c : Int) (l : List Int) (hne : l ≠ [])
    (h : ∀ x ∈ l, x = c) : addedFundsOf l = some c := by
  unfold addedFundsOf insertionSortBy
  rw [insertionSortBy_const c l [] h (by intro y hy; cases hy)]
  rw [List.nil_append, List.getLast?_eq_getLast l hne]
  exact congrArg some (h _ (List.getLast_mem hne))

theorem totalRefunded_const (c : Int) (l : List Int) (h : ∀ x ∈ l, x = c) :
    totalRefundedOutcomeTokensOf c l = 0 := by
  unfold totalRefundedOutcomeTokensOf
  have H : ∀ (l' : List Int), (∀ x ∈ l', x = c) → ∀ acc : Int,
      List.foldl (fun acc a => acc + (c - a)) acc l' = acc := by
    intro l'
    induction l' with
    | nil => intro _ acc; rfl
    | cons x xs ih =>
      intro hx acc
      rw [List.foldl_cons, hx x (List.mem_cons_self x xs), sub_self, add_zero]
      exact ih (fun y hy => hx y (List.mem_cons_of_mem x hy)) acc
  exact H l h bigZero

theorem getD_const (c : Int) (l : List Int) (h : ∀ x ∈ l, x = c) :
    ∀ n : Nat, n < l.length → l.getD n bigZero = c := by
  induction l with
  | nil => intro n hn; exact absurd hn (Nat.not_lt_zero n)
  | cons x xs ih =>
    intro n hn
    cases n with
    | zero => exact h x (List.mem_cons_self x xs)
    | succ k =>
      exact ih (fun y hy => h y (List.mem_cons_of_mem x hy)) k (Nat.lt_of_succ_lt_succ hn)

theorem refundedAmountAt_const (c : Int) (l : List Int) (h : ∀ x ∈ l, x = c)
    (n : Nat) (hn : n < l.length) : refundedAmountAt c l n = 0 := by
  unfold refundedAmountAt
  rw [getD_const c l h n hn, sub_self]

theorem refundValueAt_of_nonpos (tv ra : Int) : refundValueAt tv 0 ra = 0 := rfl

/-- Claim C9: a liquidity-added event in which every entry of `amountsAdded`
equals `sharesMinted`. Then `addedFunds = sharesMinted`, no outcome token is
refunded (`totalRefundedOutcomeTokens = 0`), the guarded division is never
taken (every `refundValue` is the guard's `bigZero`), and every affected
position keeps all six accounting fields, for any store satisfying the
reconciliation invariant. -/
theorem liquidityAdded_equal_amounts_noop (store : Store) (fpmmAddress funder : String)
    (amountsAdded : List Int) (sharesMinted : Int) (hs : StoreInv store)
    (hne : amountsAdded ≠ []) (hall : ∀ x ∈ amountsAdded, x = sharesMinted) :
    addedFundsOf amountsAdded = some sharesMinted ∧
    totalRefundedOutcomeTokensOf sharesMinted amountsAdded = 0 ∧
    (∀ i : Nat, i < amountsAdded.length →
      refundedAmountAt sharesMinted amountsAdded i = 0 ∧
      refundValueAt (sharesMinted - sharesMinted)
        (totalRefundedOutcomeTokensOf sharesMinted amountsAdded)
        (refundedAmountAt sharesMinted amountsAdded i) = 0) ∧
    ∃ s', (updateMarketPositionFromLiquidityAdded store fpmmAddress funder amountsAdded
        sharesMinted).2 = .ok s' ∧
      ∀ i : Nat, i < amountsAdded.length →
        (getMarketPosition s' funder fpmmAddress (Int.ofNat i)).quantityBought =
          (getMarketPosition store funder fpmmAddress (Int.ofNat i)).quantityBought ∧
        (getMarketPosition s' funder fpmmAddress (Int.ofNat i)).quantitySold =
          (getMarketPosition store funder fpmmAddress (Int.ofNat i)).quantitySold ∧
        (getMarketPosition s' funder fpmmAddress (Int.ofNat i)).valueBought =
          (getMarketPosition store funder fpmmAddress (Int.ofNat i)).valueBought ∧
        (getMarketPosition s' funder fpmmAddress (Int.ofNat i)).valueSold =
          (getMarketPosition store funder fpmmAddress (Int.ofNat i)).valueSold ∧
        (getMarketPosition s' funder fpmmAddress (Int.ofNat i)).netQuantity =
          (getMarketPosition store funder fpmmAddress (Int.ofNat i)).netQuantity ∧
        (getMarketPosition s' funder fpmmAddress (Int.ofNat i)).netValue =
          (getMarketPosition store funder fpmmAddress (Int.ofNat i)).netValue := by
  have haf := addedFundsOf_const sharesMinted amountsAdded hne hall
  have htot := totalRefunded_const sharesMinted amountsAdded hall
  refine ⟨haf, htot, ?_, ?_⟩
  · intro i hi
    refine ⟨refundedAmountAt_const _ _ hall i hi, ?_⟩
    rw [htot]
    exact refundValueAt_of_nonpos _ _
  · unfold updateMarketPositionFromLiquidityAdded
    rw [haf]
    refine ⟨_, rfl, ?_⟩
    intro i hi
    set u := funder
    set m := fpmmAddress
    set ks : List Int := (List.range amountsAdded.length).map Int.ofNat with hks
    set updL : Int → MarketPosition → MarketPosition := fun outcomeIndex position =>
      let refundedAmount := refundedAmountAt sharesMinted amountsAdded outcomeIndex.toNat
      { position with
        quantityBought := position.quantityBought + refundedAmount,
        valueBought := position.valueBought +
          refundValueAt (sharesMinted - sharesMinted)
            (totalRefundedOutcomeTokensOf sharesMinted amountsAdded) refundedAmount }
      with hupdL
    have hδ : ∀ j ∈ ks, ∀ p : MarketPosition,
        (updL j p).user = p.user ∧ (updL j p).market = p.market ∧
        (updL j p).outcomeIndex = p.outcomeIndex ∧
        (updL j p).quantityBought = p.quantityBought + 0 ∧
        (updL j p).quantitySold = p.quantitySold + 0 ∧
        (updL j p).valueBought = p.valueBought + 0 ∧
        (updL j p).valueSold = p.valueSold + 0 := by
      intro j hj p
      obtain ⟨a, ha, rfl⟩ := List.mem_map.mp hj
      have halen : a < amountsAdded.length := List.mem_range.mp ha
      have hra : refundedAmountAt sharesMinted amountsAdded (Int.ofNat a).toNat = 0 :=
        refundedAmountAt_const _ _ hall a halen
      refine ⟨rfl, rfl, rfl, ?_, (add_zero _).symm, ?_, (add_zero _).symm⟩
      · show p.quantityBought +
          refundedAmountAt sharesMinted amountsAdded (Int.ofNat a).toNat = _
        rw [hra]
      · show p.valueBought + refundValueAt (sharesMinted - sharesMinted)
          (totalRefundedOutcomeTokensOf sharesMinted amountsAdded)
          (refundedAmountAt sharesMinted amountsAdded (Int.ofNat a).toNat) = _
        rw [htot, refundValueAt_of_nonpos]
    set k := positionKey u m (Int.ofNat i) with hk
    have cloop := posUpdateLoop_constDelta u m updL 0 0 0 0 ks store [] hs hδ k
    set cnt := List.countP (fun j => decide (positionKey u m j = k)) ks with hcnt
    by_cases hzero : cnt = 0
    · have hcong := getMarketPosition_congr u m (Int.ofNat i) (cloop.1 hzero)
      rw [hcong]
      exact ⟨rfl, rfl, rfl, rfl, rfl, rfl⟩
    · obtain ⟨p, hload, e1, e2, e3, e4, e5, e6⟩ := cloop.2 cnt rfl (Nat.pos_of_ne_zero hzero)
      simp only [mul_zero, add_zero] at e1 e2 e3 e4
      have hmp : getMarketPosition (posUpdateLoop u m updL ks store []).1 u m (Int.ofNat i) = p :=
        getMarketPosition_of_load hload
      have hgross := getMarketPosition_gross store u m (Int.ofNat i)
      have hbase := net_base store hs u m (Int.ofNat i)
      rw [hmp]
      rw [← hk] at hgross hbase
      refine ⟨?_, ?_, ?_, ?_, ?_, ?_⟩
      · rw [e1, hgross.1]
      · rw [e2, hgross.2.1]
      · rw [e3, hgross.2.2.1]
      · rw [e4, hgross.2.2.2]
      · rw [e5, e1, e2, hbase.1]
      · rw [e6, e3, e4, hbase.2]

theorem liquidityAdded_equal_amounts_noop_witness :
    addedFundsOf amountsEqW = some 100 ∧
    totalRefundedOutcomeTokensOf 100 amountsEqW = 0 ∧
    (∀ i : Nat, i < amountsEqW.length →
      refundedAmountAt 100 amountsEqW i = 0 ∧
      refundValueAt ((100 : Int) - 100) (totalRefundedOutcomeTokensOf 100 amountsEqW)
        (refundedAmountAt 100 amountsEqW i) = 0) ∧
    ∃ s', (updateMarketPositionFromLiquidityAdded [] fpmmW funderW amountsEqW 100).2 =
        .ok s' ∧
      ∀ i : Nat, i < amountsEqW.length →
        (getMarketPosition s' funderW fpmmW (Int.ofNat i)).quantityBought =
          (getMarketPosition [] funderW fpmmW (Int.ofNat i)).quantityBought ∧
        (getMarketPosition s' funderW fpmmW (Int.ofNat i)).quantitySold =
          (getMarketPosition [] funderW fpmmW (Int.ofNat i)).quantitySold ∧
        (getMarketPosition s' funderW fpmmW (Int.ofNat i)).valueBought =
          (getMarketPosition [] funderW fpmmW (Int.ofNat i)).valueBought ∧
        (getMarketPosition s' funderW fpmmW (Int.ofNat i)).valueSold =
          (getMarketPosition [] funderW fpmmW (Int.ofNat i)).valueSold ∧
        (getMarketPosition s' funderW fpmmW (Int.ofNat i)).netQuantity =
          (getMarketPosition [] funderW fpmmW (Int.ofNat i)).netQuantity ∧
        (getMarketPosition s' funderW fpmmW (Int.ofNat i)).netValue =
          (getMarketPosition [] funderW fpmmW (Int.ofNat i)).netValue :=
  liquidityAdded_equal_amounts_noop [] fpmmW funderW amountsEqW 100 storeInv_nil
    (by decide) (by decide)

/-! ## Claims C2 and C10: the redemption loop -/

theorem redemptionLoop_cons_reduce (u m : String) (ns : List Int) (d : Int) (t : Int)
    (ks : List Int) (s : Store) (logs : List Diag)
    (hb : 0 ≤ toI32 t ∧ (toI32 t).toNat < ns.length) (hd : ¬ d = 0) :
    redemptionLoop u m ns d (t :: ks) s logs =
      redemptionLoop u m ns d ks
        (updateNetPositionAndSave s logs (redemptionUpd ns d t (getMarketPosition s u m t))).1
        (updateNetPositionAndSave s logs
          (redemptionUpd ns d t (getMarketPosition s u m t))).2 := by
  simp only [redemptionLoop]
  rw [if_pos hb, if_neg hd]

/-- Identity and accounting fields of the saved position of one redemption
step over a reconciled input position: the net quantity lands on exactly 0,
the full balance moves to `quantitySold`, and the payout joins `valueSold`. -/
theorem redemptionStep_fields (ns : List Int) (d t : Int) (pos : MarketPosition)
    (hrec : reconciledP pos) :
    (reconcile (redemptionUpd ns d t pos)).id = pos.id ∧
    (reconcile (redemptionUpd ns d t pos)).netQuantity = 0 ∧
    (reconcile (redemptionUpd ns d t pos)).quantitySold =
      pos.quantitySold + pos.netQuantity ∧
    (reconcile (redemptionUpd ns d t pos)).valueSold =
      pos.valueSold + bigDiv (pos.netQuantity * ns.getD (toI32 t).toNat bigZero) d := by
  refine ⟨rfl, ?_, rfl, rfl⟩
  show (redemptionUpd ns d t pos).quantityBought - (redemptionUpd ns d t pos).quantitySold = 0
  show pos.quantityBought - (pos.quantitySold + pos.netQuantity) = 0
  rw [hrec.1]
  ring

theorem redemptionLoop_frame (u m : String) (ns : List Int) (d : Int) :
    ∀ (ks : List Int) (s : Store) (logs logs' : List Diag) (s' : Store),
    redemptionLoop u m ns d ks s logs = (logs', .ok s') → StoreInv s →
    ∀ k, (∀ t ∈ ks, positionKey u m t ≠ k) → Store.load s' k = Store.load s k := by
  intro ks
  induction ks with
  | nil =>
    intro s logs logs' s' heq hs k _
    simp only [redemptionLoop, Prod.mk.injEq, Except.ok.injEq] at heq
    rw [← heq.2]
  | cons t ks ih =>
    intro s logs logs' s' heq hs k hk
    simp only [redemptionLoop] at heq
    split at heq
    · split at heq
      · simp at heq
      · rename_i hb hd
        rw [updateNetPositionAndSave_fst] at heq
        have hsave : Store.load
            (Store.save s (reconcile (redemptionUpd ns d t (getMarketPosition s u m t)))) k =
            Store.load s k := by
          apply load_save_of_ne
          rw [reconcile_id]
          show k ≠ (redemptionUpd ns d t (getMarketPosition s u m t)).id
          show k ≠ (getMarketPosition s u m t).id
          rw [getMarketPosition_id s hs u m t]
          exact fun e => hk t (List.mem_cons_self t ks) e.symm
        have hrest := ih _ _ _ _ heq
          (save_inv hs (reconcile_reconciled _))
          k (fun b hb' => hk b (List.mem_cons_of_mem t hb'))
        rw [hrest, hsave]
    · simp at heq

theorem redemptionLoop_spec (u m : String) (ns : List Int) (d : Int) (hd : d ≠ 0) :
    ∀ (ks : List Int), (∀ t ∈ ks, 0 ≤ toI32 t ∧ (toI32 t).toNat < ns.length) →
    ∀ (s : Store) (logs : List Diag), StoreInv s →
    ∃ logs' s',
      redemptionLoop u m ns d ks s logs = (logs', .ok s') ∧
      StoreInv s' ∧
      (∀ k p, Store.load s k = some p → p.netQuantity = 0 →
        ∃ p', Store.load s' k = some p' ∧ p'.netQuantity = 0) ∧
      (∀ t ∈ ks, ∃ p, Store.load s' (positionKey u m t) = some p ∧ p.netQuantity = 0) := by
  intro ks
  induction ks with
  | nil =>
    intro _ s logs hs
    exact ⟨logs, s, rfl, hs, fun k p hp h0 => ⟨p, hp, h0⟩,
      fun t ht => absurd ht (List.not_mem_nil t)⟩
  | cons t ks ih =>
    intro hbounds s logs hs
    have hb := hbounds t (List.mem_cons_self t ks)
    set pos := getMarketPosition s u m t with hposdef
    set p1 := reconcile (redemptionUpd ns d t pos) with hp1def
    have hstep := redemptionStep_fields ns d t pos (getMarketPosition_reconciled s hs u m t)
    have hp1id : p1.id = positionKey u m t := by
      rw [hstep.1]
      exact getMarketPosition_id s hs u m t
    have hinv1 : StoreInv (Store.save s p1) := save_inv hs (reconcile_reconciled _)
    obtain ⟨logs', s', heq, hinv, hzero, hall⟩ :=
      ih (fun b hb' => hbounds b (List.mem_cons_of_mem t hb'))
        (Store.save s p1) (updateNetPositionAndSave s logs (redemptionUpd ns d t pos)).2 hinv1
    refine ⟨logs', s', ?_, hinv, ?_, ?_⟩
    · rw [redemptionLoop_cons_reduce u m ns d t ks s logs hb hd,
        updateNetPositionAndSave_fst]
      exact heq
    · intro k p hp h0
      by_cases hk : k = p1.id
      · subst hk
        refine hzero p1.id p1 (load_save_self s p1) hstep.2.1
      · exact hzero k p (by rw [load_save_of_ne s p1 k hk]; exact hp) h0
    · intro b hbmem
      rcases List.mem_cons.mp hbmem with rfl | hbmem'
      · obtain ⟨p', hp', h0'⟩ :=
          hzero (positionKey u m b) p1 (by rw [← hp1id]; exact load_save_self s p1)
            hstep.2.1
        exact ⟨p', hp', h0'⟩
      · exact hall b hbmem'

theorem redemptionLoop_delta (u m : String) (ns : List Int) (d : Int) :
    ∀ (ks : List Int) (s : Store) (logs logs' : List Diag) (s' : Store),
    redemptionLoop u m ns d ks s logs = (logs', .ok s') → StoreInv s →
    List.Pairwise (fun a b => positionKey u m a ≠ positionKey u m b) ks →
    ∀ t ∈ ks, ∃ p, Store.load s' (positionKey u m t) = some p ∧
      p.netQuantity = 0 ∧
      p.quantitySold = (getMarketPosition s u m t).quantitySold +
        (getMarketPosition s u m t).netQuantity ∧
      p.valueSold = (getMarketPosition s u m t).valueSold +
        bigDiv ((getMarketPosition s u m t).netQuantity * ns.getD (toI32 t).toNat bigZero)
          d := by
  intro ks
  induction ks with
  | nil =>
    intro s logs logs' s' _ _ _ t ht
    exact absurd ht (List.not_mem_nil t)
  | cons a ks ih =>
    intro s logs logs' s' heq hs hpw t ht
    simp only [redemptionLoop] at heq
    split at heq
    · split at heq
      · simp at heq
      · rename_i hb hd
        rw [updateNetPositionAndSave_fst] at heq
        set pos := getMarketPosition s u m a with hposdef
        set p1 := reconcile (redemptionUpd ns d a pos) with hp1def
        have hstep := redemptionStep_fields ns d a pos
          (getMarketPosition_reconciled s hs u m a)
        have hp1id : p1.id = positionKey u m a := by
          rw [hstep.1]
          exact getMarketPosition_id s hs u m a
        have hinv1 : StoreInv (Store.save s p1) := save_inv hs (reconcile_reconciled _)
        obtain ⟨hhead, hpw'⟩ := List.pairwise_cons.mp hpw
        rcases List.mem_cons.mp ht with rfl | htmem
        · -- the head slot: its own step wrote it, the rest never touches its key
          have hframe := redemptionLoop_frame u m ns d ks _ _ _ _ heq hinv1
            (positionKey u m t)
            (fun b hb' e => hhead b hb' e.symm)
          refine ⟨p1, ?_, hstep.2.1, hstep.2.2.1, hstep.2.2.2⟩
          rw [hframe, ← hp1id]
          exact load_save_self s p1
        · -- a later slot: its prior position is untouched by the head's save
          have hloadeq : Store.load (Store.save s p1) (positionKey u m t) =
              Store.load s (positionKey u m t) := by
            apply load_save_of_ne
            rw [hp1id]
            exact fun e => hhead t htmem e.symm
          have hcong : getMarketPosition (Store.save s p1) u m t =
              getMarketPosition s u m t := getMarketPosition_congr u m t hloadeq
          obtain ⟨p, hp, h0, h1, h2⟩ := ih _ _ _ _ heq hinv1 hpw' t htmem
          rw [hcong] at h1 h2
          exact ⟨p, hp, h0, h1, h2⟩
    · simp at heq

/-- Claim C2: redemption against a loaded, resolved condition with a nonzero
payout denominator, over in-range redeemed slots, starting from any store
satisfying the reconciliation invariant. Every redeemed slot's stored
position ends with `netQuantity = 0`; and (when the redeemed slots map to
pairwise distinct position keys, as actual index sets do) `quantitySold`
grew by exactly the prior `netQuantity` and `valueSold` by
`netQuantity * payoutNumerators[slot] / payoutDenominator` with truncating
division, whatever the prior position state was. -/
theorem redemption_zeroes_netQuantity (ext : External) (store : Store)
    (marketMakerAddress userAddress conditionId : String) (indexSets : List Int)
    (cid : String) (ns : List Int) (d : Int)
    (hs : StoreInv store)
    (hc : ext.conditions conditionId = some ⟨cid, some ns, some d⟩)
    (hd : d ≠ 0)
    (hbounds : ∀ t ∈ indexSets, 0 ≤ toI32 t ∧ (toI32 t).toNat < ns.length) :
    ∃ logs' s',
      updateMarketPositionsFromRedemption ext store marketMakerAddress userAddress
        conditionId indexSets = (logs', .ok s') ∧
      (∀ t ∈ indexSets, ∃ p,
        Store.load s' (positionKey userAddress marketMakerAddress t) = some p ∧
        p.netQuantity = 0) ∧
      (List.Pairwise (fun a b => positionKey userAddress marketMakerAddress a ≠
          positionKey userAddress marketMakerAddress b) indexSets →
        ∀ t ∈ indexSets, ∃ p,
          Store.load s' (positionKey userAddress marketMakerAddress t) = some p ∧
          p.netQuantity = 0 ∧
          p.quantitySold =
            (getMarketPosition store userAddress marketMakerAddress t).quantitySold +
            (getMarketPosition store userAddress marketMakerAddress t).netQuantity ∧
          p.valueSold =
            (getMarketPosition store userAddress marketMakerAddress t).valueSold +
            bigDiv ((getMarketPosition store userAddress marketMakerAddress t).netQuantity *
              ns.getD (toI32 t).toNat bigZero) d) := by
  obtain ⟨logs', s', heq, _, _, hall⟩ :=
    redemptionLoop_spec userAddress marketMakerAddress ns d hd indexSets hbounds store [] hs
  refine ⟨logs', s', ?_, hall, ?_⟩
  · unfold updateMarketPositionsFromRedemption
    rw [hc]
    exact heq
  · intro hpw
    exact redemptionLoop_delta userAddress marketMakerAddress ns d indexSets store []
      logs' s' heq hs hpw

theorem redemption_zeroes_netQuantity_witness :
    ∃ logs' s',
      updateMarketPositionsFromRedemption extResolved [] mW uW cidW [0] = (logs', .ok s') ∧
      (∀ t ∈ ([0] : List Int), ∃ p,
        Store.load s' (positionKey uW mW t) = some p ∧ p.netQuantity = 0) ∧
      (List.Pairwise (fun a b => positionKey uW mW a ≠ positionKey uW mW b) [0] →
        ∀ t ∈ ([0] : List Int), ∃ p,
          Store.load s' (positionKey uW mW t) = some p ∧
          p.netQuantity = 0 ∧
          p.quantitySold = (getMarketPosition [] uW mW t).quantitySold +
            (getMarketPosition [] uW mW t).netQuantity ∧
          p.valueSold = (getMarketPosition [] uW mW t).valueSold +
            bigDiv ((getMarketPosition [] uW mW t).netQuantity *
              ([1, 0] : List Int).getD (toI32 t).toNat bigZero) 1) :=
  redemption_zeroes_netQuantity extResolved [] mW uW cidW [0] cidW [1, 0] 1
    storeInv_nil (by decide) (by decide) (by decide)

theorem toI32_eq_self {t : Int} (h0 : 0 ≤ t) (h1 : t < 2147483648) : toI32 t = t := by
  unfold toI32
  have hmod : t % 4294967296 = t := Int.emod_eq_of_lt h0 (by omega)
  rw [hmod, if_pos h1]

/-- Claim C10: `payoutNumerators[redeemedSlot.toI32()]` carries no bounds
check. Under the precondition that every redeemed slot is a valid index of
`payoutNumerators` (with the array length within the 32-bit range every real
array satisfies, and a nonzero denominator), the embedding completes without
an abort; and a concrete event violating the precondition (slot 5 against a
2-entry `payoutNumerators`) aborts with an index-out-of-range trap. -/
theorem redemption_index_bounds :
    (∀ (ext : External) (store : Store)
      (marketMakerAddress userAddress conditionId cid : String)
      (indexSets ns : List Int) (d : Int),
      StoreInv store →
      ext.conditions conditionId = some ⟨cid, some ns, some d⟩ →
      d ≠ 0 →
      (∀ t ∈ indexSets, 0 ≤ t ∧ t < (ns.length : Int)) →
      (ns.length : Int) ≤ 2147483648 →
      ∃ logs' s', updateMarketPositionsFromRedemption ext store marketMakerAddress
        userAddress conditionId indexSets = (logs', .ok s')) ∧
    updateMarketPositionsFromRedemption extResolved [] mW uW cidW [5] =
      ([], .error Trap.indexOutOfRange) := by
  constructor
  · intro ext store mm user conditionId cid indexSets ns d hs hc hd hbounds hlen
    have hbounds' : ∀ t ∈ indexSets, 0 ≤ toI32 t ∧ (toI32 t).toNat < ns.length := by
      intro t ht
      obtain ⟨ht0, ht1⟩ := hbounds t ht
      have hself : toI32 t = t := toI32_eq_self ht0 (by omega)
      rw [hself]
      omega
    obtain ⟨logs', s', heq, -, -, -⟩ :=
      redemptionLoop_spec user mm ns d hd indexSets hbounds' store [] hs
    refine ⟨logs', s', ?_⟩
    unfold updateMarketPositionsFromRedemption
    rw [hc]
    exact heq
  · rfl

end MarketPositions
